import Mathlib

/-!
Shallow embedding of the todo application in `src/components/TodoApp.tsx`:
the todo data model, the completion propagator (`toggleTodo`,
`updateChildrenCompletion`, `updateParentCompletion`, `getDirectChildren`),
the display ordering (`sortedTodos`), and the input controller
(`handleKeyDown`, `addTodo`).  The store is the ordered list of todo items;
JavaScript's in-place array mutation is modelled by explicit list updates.
-/

namespace TodoApp

/-- The `Priority` union type: `'emergency' | 'urgent' | 'normal' | 'low'`. -/
inductive Priority
  | emergency
  | urgent
  | normal
  | low
deriving DecidableEq, BEq, Repr

/-- The `Todo` interface (the unused optional `children` field is never
written or read by the component and is omitted). -/
structure Todo where
  id : String
  text : String
  completed : Bool
  depth : Nat
  priority : Priority
deriving DecidableEq, Repr

/-- The rank table `{ emergency: 0, urgent: 1, normal: 2, low: 3 }` used by
the display-ordering comparator. -/
def priorityOrder : Priority → Nat
  | .emergency => 0
  | .urgent => 1
  | .normal => 2
  | .low => 3

/-- The comparator passed to `[...todos].sort`: `0` when depths differ,
otherwise the difference of the priority ranks. -/
def todoCompare (a b : Todo) : Int :=
  if a.depth ≠ b.depth then 0
  else (priorityOrder a.priority : Int) - (priorityOrder b.priority : Int)

/-- Whether the comparator allows `a` to stay in front of `b`
(`todoCompare a b ≤ 0`). -/
def todoLe (a b : Todo) : Bool :=
  decide (todoCompare a b ≤ 0)

/-- Merge step of the stable merge sort modelling `Array.prototype.sort`:
on a tie or a negative comparison the left element is emitted first, so the
sort is stable as ECMAScript requires. -/
def todoMerge : List Todo → List Todo → List Todo
  | [], ys => ys
  | xs, [] => xs
  | x :: xs, y :: ys =>
    if todoLe x y then x :: todoMerge xs (y :: ys)
    else y :: todoMerge (x :: xs) ys
termination_by xs ys => xs.length + ys.length
decreasing_by
all_goals simp only [List.length_cons]
all_goals omega

/-- Stable merge sort over the fixed comparator, modelling
`[...todos].sort((a, b) => ...)` (ECMAScript guarantees `sort` is stable;
with this inconsistent comparator the exact output is otherwise
implementation-defined, and a canonical stable top-down merge sort is the
model used here). -/
def todoMergeSort (l : List Todo) : List Todo :=
  if h : l.length ≤ 1 then l
  else
    todoMerge (todoMergeSort (l.take (l.length / 2)))
      (todoMergeSort (l.drop (l.length / 2)))
termination_by l.length
decreasing_by
all_goals simp only [List.length_take, List.length_drop]
all_goals omega

/-- `sortedTodos`: the render-ready ordering derived from the store
(`[...todos].sort(comparator)`), lines 188-193 of the source. -/
def sortedTodos (todos : List Todo) : List Todo :=
  todoMergeSort todos

/-- The spec's name (`orderForDisplay`) for the display ordering. -/
def orderForDisplay (store : List Todo) : List Todo :=
  sortedTodos store

/-- Transient input-controller state: the draft text, draft depth and draft
priority, together with the store itself (the pieces of component state the
keyboard handler can read and write). -/
structure AppState where
  todos : List Todo
  inputValue : String
  inputDepth : Nat
  inputPriority : Priority
deriving DecidableEq, Repr

/-- The fields of the keyboard event the handler inspects. -/
structure KeyEvent where
  key : String
  shiftKey : Bool
  isComposing : Bool
deriving DecidableEq, Repr

/-- The cycling order `['low', 'normal', 'urgent', 'emergency']` used by the
arrow-key handlers. -/
def priorities : List Priority :=
  [.low, .normal, .urgent, .emergency]

/-- JavaScript's `String.prototype.trim` (drop leading and trailing
whitespace), modelled directly on the character list so that it computes by
structural recursion. -/
def jsTrim (s : String) : String :=
  ⟨((s.data.dropWhile Char.isWhitespace).reverse.dropWhile Char.isWhitespace).reverse⟩

/-- `addTodo`, lines 63-77: no-op on whitespace-only drafts, otherwise
append one item (fresh id from `Date.now().toString()`, modelled by the
`newId` parameter; trimmed text; `completed = false`; draft depth and
priority), then clear the text and reset the priority to `normal`. -/
def addTodo (newId : String) (s : AppState) : AppState :=
  if jsTrim s.inputValue = "" then s
  else
    let newTodo : Todo :=
      { id := newId
        text := jsTrim s.inputValue
        completed := false
        depth := s.inputDepth
        priority := s.inputPriority }
    { s with
      todos := s.todos ++ [newTodo]
      inputValue := ""
      inputPriority := Priority.normal }

/-- `handleKeyDown`, lines 36-61: Tab/Shift+Tab clamp the draft depth to
`[0, 2]`, the arrow keys cycle the draft priority, Backspace on empty text
outdents, and Enter with non-empty trimmed text outside composition commits
the draft via `addTodo`. -/
def handleKeyDown (e : KeyEvent) (newId : String) (s : AppState) : AppState :=
  if e.key = "Tab" then
    if e.shiftKey then { s with inputDepth := max 0 (s.inputDepth - 1) }
    else { s with inputDepth := min 2 (s.inputDepth + 1) }
  else if e.key = "ArrowUp" then
    let currentIndex := priorities.indexOf s.inputPriority
    let nextIndex := (currentIndex + 1) % priorities.length
    { s with inputPriority := priorities.getD nextIndex Priority.normal }
  else if e.key = "ArrowDown" then
    let currentIndex := priorities.indexOf s.inputPriority
    let prevIndex := if currentIndex = 0 then priorities.length - 1 else currentIndex - 1
    { s with inputPriority := priorities.getD prevIndex Priority.normal }
  else if e.key = "Backspace" ∧ s.inputValue = "" ∧ s.inputDepth > 0 then
    { s with inputDepth := s.inputDepth - 1 }
  else if e.key = "Enter" ∧ jsTrim s.inputValue ≠ "" ∧ e.isComposing = false then
    addTodo newId s
  else s

/-- Scan loop of `getDirectChildren`, lines 135-143, over the part of the
store that follows the parent: stop at the first item whose depth is at most
the parent's depth, collect the items at exactly the parent's depth plus
one, and skip (but continue past) deeper items. -/
def getDirectChildrenAux (parentDepth : Nat) : List Todo → List Todo
  | [] => []
  | todo :: rest =>
    if todo.depth ≤ parentDepth then []
    else if todo.depth = parentDepth + 1 then
      todo :: getDirectChildrenAux parentDepth rest
    else getDirectChildrenAux parentDepth rest

/-- `getDirectChildren`, lines 131-146: the direct children of the item at
`parentIndex` (callers always pass an in-range index; out of range yields
the empty list). -/
def getDirectChildren (todoList : List Todo) (parentIndex : Nat) : List Todo :=
  match todoList[parentIndex]? with
  | some parentTodo => getDirectChildrenAux parentTodo.depth (todoList.drop (parentIndex + 1))
  | none => []

/-- One iteration of the `updateParentCompletion` loop body, lines 113-127,
at index `i`: for an item of depth below 2 with at least one direct child,
force `completed := true` when all direct children are completed and the
item is not, and `completed := false` when some direct child is incomplete
and the item is completed. -/
def updateParentStep (todoList : List Todo) (i : Nat) : List Todo :=
  match todoList[i]? with
  | none => todoList
  | some todo =>
    if todo.depth < 2 then
      let children := getDirectChildren todoList i
      if children.length > 0 then
        let allChildrenCompleted := children.all (fun child => child.completed)
        let anyChildUncompleted := children.any (fun child => !child.completed)
        if allChildrenCompleted ∧ !todo.completed then
          todoList.set i { todo with completed := true }
        else if anyChildUncompleted ∧ todo.completed then
          todoList.set i { todo with completed := false }
        else todoList
      else todoList
    else todoList

/-- The descending loop of `updateParentCompletion`, line 112: with counter
`k + 1` the index `k` is processed first, then the indices below it. -/
def updateParentGo (todoList : List Todo) : Nat → List Todo
  | 0 => todoList
  | k + 1 => updateParentGo (updateParentStep todoList k) k

/-- `updateParentCompletion`, lines 111-129: the bottom-up (reverse index
order) recompute of every parent's completion state. -/
def updateParentCompletion (todoList : List Todo) : List Todo :=
  updateParentGo todoList todoList.length

/-- The loop of `updateChildrenCompletion`, lines 97-108, resumed at index
`i` for the parent at index `p`: break at the first item whose depth is at
most the parent's, set each item at exactly the parent's depth plus one to
`completed := c`, and when `c` is true recurse into that child before the
loop continues.  The returned list is packaged with a proof that the length
is unchanged, which drives the termination argument. -/
def uccGo (l : List Todo) (p i : Nat) (c : Bool) (hpi : p < i) :
    {r : List Todo // r.length = l.length} :=
  if hi : i < l.length then
    let parentTodo := l.get ⟨p, Nat.lt_trans hpi hi⟩
    let todo := l.get ⟨i, hi⟩
    if todo.depth ≤ parentTodo.depth then ⟨l, rfl⟩
    else if todo.depth = parentTodo.depth + 1 then
      let l1 := l.set i { todo with completed := c }
      if c then
        let r1 := uccGo l1 i (i + 1) c (Nat.lt_succ_self i)
        let r2 := uccGo r1.val p (i + 1) c (Nat.lt_succ_of_lt hpi)
        ⟨r2.val, (r2.property.trans r1.property).trans (List.length_set l i _)⟩
      else
        let r3 := uccGo l1 p (i + 1) c (Nat.lt_succ_of_lt hpi)
        ⟨r3.val, r3.property.trans (List.length_set l i _)⟩
    else
      uccGo l p (i + 1) c (Nat.lt_succ_of_lt hpi)
  else ⟨l, rfl⟩
termination_by (l.length - p, l.length - i)
decreasing_by
all_goals first
  | (have he : r1.val.length = l.length := by
       rw [r1.property]
       simp only [l1, List.length_set]
     rw [he]
     apply Prod.Lex.right
     omega)
  | (simp only [List.length_set]
     apply Prod.Lex.left
     omega)
  | (have he : l1.length = l.length := by simp only [l1, List.length_set]
     rw [he]
     apply Prod.Lex.right
     omega)
  | (apply Prod.Lex.right
     omega)

/-- `updateChildrenCompletion`, lines 94-109: run the cascade loop from the
index just after the parent. -/
def updateChildrenCompletion (todoList : List Todo) (parentIndex : Nat) (c : Bool) : List Todo :=
  (uccGo todoList parentIndex (parentIndex + 1) c (Nat.lt_succ_self parentIndex)).val

/-- `toggleTodo`, lines 79-92: find the clicked item (`findIndex`), flip its
flag, cascade downward when the new value is `true`, then recompute parents
bottom-up.  When the id is absent, `findIndex` yields `-1` and the
JavaScript body throws a `TypeError` reading `undefined.completed`; the
thrown exception is modelled by `none`. -/
def toggleTodo (todos : List Todo) (id : String) : Option (List Todo) :=
  let todoIndex := todos.findIdx (fun todo => todo.id = id)
  if h : todoIndex < todos.length then
    let clickedTodo := todos.get ⟨todoIndex, h⟩
    let updated := todos.set todoIndex { clickedTodo with completed := !clickedTodo.completed }
    let updated2 :=
      if !clickedTodo.completed then updateChildrenCompletion updated todoIndex true
      else updated
    some (updateParentCompletion updated2)
  else none

/-- The state of the store after the flip and the downward cascade of
`toggleTodo` but before `updateParentCompletion` runs (the value of
`updated` at line 90 of the source). -/
def toggleDownward (todos : List Todo) (id : String) : Option (List Todo) :=
  let todoIndex := todos.findIdx (fun todo => todo.id = id)
  if h : todoIndex < todos.length then
    let clickedTodo := todos.get ⟨todoIndex, h⟩
    let updated := todos.set todoIndex { clickedTodo with completed := !clickedTodo.completed }
    some
      (if !clickedTodo.completed then updateChildrenCompletion updated todoIndex true
       else updated)
  else none

/-- The per-item data that is not a completion flag: id, text, depth and
priority.  Toggling is expected to change only `completed`, so these four
fields together form the frame that must be preserved. -/
def shape (t : Todo) : String × String × Nat × Priority :=
  (t.id, t.text, t.depth, t.priority)

/-- Depth of the item at index `j` (0 when out of range; only used at
in-range indices). -/
def depthAt (l : List Todo) (j : Nat) : Nat :=
  ((l[j]?).map Todo.depth).getD 0

/-- Completion flag of the item at index `j`, when in range. -/
def completedAt (l : List Todo) (j : Nat) : Option Bool :=
  (l[j]?).map Todo.completed

/-- Index `j` lies in the maximal contiguous run of descendants following
index `p`: every index from `p + 1` up to `j` holds an item whose depth is
strictly greater than the depth at `p` (the run stops at the first item
whose depth is at most the depth at `p`). -/
def inRun (l : List Todo) (p j : Nat) : Prop :=
  p < j ∧ j < l.length ∧ ∀ m, m ≤ j → p < m → depthAt l p < depthAt l m

instance (l : List Todo) (p j : Nat) : Decidable (inRun l p j) := by
  unfold inRun
  infer_instance

/-- The store is a depth-first pre-order flattening: each item's depth
exceeds its predecessor's depth by at most one. -/
def stepwiseDepths : List Todo → Bool
  | [] => true
  | [_] => true
  | a :: b :: rest => decide (b.depth ≤ a.depth + 1) && stepwiseDepths (b :: rest)

/-- Pairwise form of the pre-order flattening invariant, convenient for
proofs: any two adjacent items increase depth by at most one. -/
def stepwisePairs (l : List Todo) : Prop :=
  ∀ j : Nat, ∀ a b : Todo, l[j]? = some a → l[j + 1]? = some b → b.depth ≤ a.depth + 1

/-- Store with a depth jump from 0 straight to 2 (reachable in the app by
pressing Tab twice before the second entry). -/
def exDepthJump : List Todo :=
  [{ id := "A", text := "A", completed := false, depth := 0, priority := .normal },
   { id := "X", text := "X", completed := false, depth := 2, priority := .normal }]

/-- Store whose depth-1 item `S` is completed while its depth-2 child `X`
is not; `T` is a completed depth-1 leaf sibling of `S`. -/
def exSiblingChild : List Todo :=
  [{ id := "P", text := "P", completed := true, depth := 0, priority := .normal },
   { id := "S", text := "S", completed := true, depth := 1, priority := .normal },
   { id := "X", text := "X", completed := false, depth := 2, priority := .normal },
   { id := "T", text := "T", completed := true, depth := 1, priority := .normal }]

/-- Store on which the display sort leaves two same-depth items out of
priority order (the depth-1 pair `A`, `D` interleaved with depth-2 items). -/
def exInterleaved : List Todo :=
  [{ id := "A", text := "A", completed := false, depth := 1, priority := .low },
   { id := "B", text := "B", completed := false, depth := 2, priority := .low },
   { id := "C", text := "C", completed := false, depth := 2, priority := .emergency },
   { id := "D", text := "D", completed := false, depth := 1, priority := .emergency }]

/-- Store on which the display sort is not idempotent. -/
def exNonIdem : List Todo :=
  [{ id := "t1", text := "t1", completed := false, depth := 0, priority := .low },
   { id := "t2", text := "t2", completed := false, depth := 1, priority := .emergency },
   { id := "t3", text := "t3", completed := false, depth := 0, priority := .emergency },
   { id := "t4", text := "t4", completed := false, depth := 0, priority := .low },
   { id := "t5", text := "t5", completed := false, depth := 0, priority := .emergency },
   { id := "t6", text := "t6", completed := false, depth := 0, priority := .emergency },
   { id := "t7", text := "t7", completed := false, depth := 0, priority := .emergency }]

/-- Well-formed three-level store: a root, two children, a grandchild under
the first child. -/
def exFamily : List Todo :=
  [{ id := "R", text := "R", completed := false, depth := 0, priority := .normal },
   { id := "B", text := "B", completed := false, depth := 1, priority := .normal },
   { id := "G", text := "G", completed := false, depth := 2, priority := .normal },
   { id := "C", text := "C", completed := false, depth := 1, priority := .normal }]

/-- Fully completed root with two completed leaf children. -/
def exDone : List Todo :=
  [{ id := "P", text := "P", completed := true, depth := 0, priority := .normal },
   { id := "B", text := "B", completed := true, depth := 1, priority := .normal },
   { id := "C", text := "C", completed := true, depth := 1, priority := .normal }]

/-- Two items at the same depth, lower priority first. -/
def exSameDepth : List Todo :=
  [{ id := "u", text := "u", completed := false, depth := 1, priority := .low },
   { id := "v", text := "v", completed := false, depth := 1, priority := .emergency }]

/-- Three items at pairwise distinct depths. -/
def exDistinctDepth : List Todo :=
  [{ id := "a", text := "a", completed := false, depth := 0, priority := .low },
   { id := "b", text := "b", completed := false, depth := 1, priority := .emergency },
   { id := "c", text := "c", completed := false, depth := 2, priority := .normal }]

/-- An Enter keypress outside text composition. -/
def enterEvent : KeyEvent :=
  { key := "Enter", shiftKey := false, isComposing := false }

/-- Draft state with surrounding whitespace in the text. -/
def exDraft : AppState :=
  { todos := exDone, inputValue := "  hello  ", inputDepth := 2, inputPriority := Priority.urgent }

/-- Draft state whose text is whitespace only. -/
def exBlankDraft : AppState :=
  { todos := exDone, inputValue := "   ", inputDepth := 1, inputPriority := Priority.low }

/-- Empty store with a first draft typed in. -/
def exDupA : AppState :=
  { todos := [], inputValue := "buy milk", inputDepth := 0, inputPriority := Priority.normal }

/-- After committing the first draft (clock reads 1730000000000) and typing a
second draft. -/
def exDupB : AppState :=
  { addTodo "1730000000000" exDupA with inputValue := "walk dog" }

/-- After committing the second draft during the same millisecond (the clock
still reads 1730000000000). -/
def exDupC : AppState :=
  addTodo "1730000000000" exDupB

theorem shape_eq_iff {a b : Todo} :
    shape a = shape b ↔ a.id = b.id ∧ a.text = b.text ∧ a.depth = b.depth ∧ a.priority = b.priority := by
  unfold shape
  simp [Prod.ext_iff]

theorem map_shape_length {l l' : List Todo} (h : l'.map shape = l.map shape) :
    l'.length = l.length := by
  have := congrArg List.length h
  simpa using this

theorem map_shape_getElem? {l l' : List Todo} (h : l'.map shape = l.map shape) (j : Nat) :
    (l'[j]?).map shape = (l[j]?).map shape := by
  have := congrArg (fun x => x[j]?) h
  simpa [List.getElem?_map] using this

theorem depthAt_congr {l l' : List Todo} (h : l'.map shape = l.map shape) (j : Nat) :
    depthAt l' j = depthAt l j := by
  have hj := map_shape_getElem? h j
  unfold depthAt
  cases h1 : l'[j]? with
  | none => cases h2 : l[j]? with
    | none => rfl
    | some b => rw [h1, h2] at hj; simp at hj
  | some a => cases h2 : l[j]? with
    | none => rw [h1, h2] at hj; simp at hj
    | some b =>
      rw [h1, h2] at hj
      have hd := (shape_eq_iff.mp (by simpa using hj)).2.2.1
      simp [hd]

theorem map_shape_set {l : List Todo} {i : Nat} {t : Todo} (c : Bool) (h : l[i]? = some t) :
    (l.set i { t with completed := c }).map shape = l.map shape := by
  rw [List.map_set]
  apply List.ext_getElem?
  intro n
  by_cases hn : i = n
  · subst hn
    obtain ⟨hi, hget⟩ := List.getElem?_eq_some.mp h
    rw [List.getElem?_set_self (by simpa using hi), List.getElem?_map,
      List.getElem?_eq_getElem hi, hget]
    rfl
  · rw [List.getElem?_set_ne hn]

theorem any_not_eq_not_all (ch : List Todo) :
    (ch.any fun child => !child.completed) = !(ch.all fun child => child.completed) := by
  induction ch with
  | nil => rfl
  | cons a t ih => simp [List.any_cons, List.all_cons, ih, Bool.not_and]

theorem map_depth_of_map_shape {l l' : List Todo} (h : l'.map shape = l.map shape) :
    l'.map Todo.depth = l.map Todo.depth := by
  have hc : ∀ (x : List Todo), x.map Todo.depth = (x.map shape).map (fun s => s.2.2.1) := by
    intro x
    rw [List.map_map]
    rfl
  rw [hc, hc, h]

theorem ups_map_shape (l : List Todo) (i : Nat) :
    (updateParentStep l i).map shape = l.map shape := by
  unfold updateParentStep
  split
  · rfl
  next todo heq =>
    dsimp only
    split_ifs <;> first | rfl | exact map_shape_set _ heq

theorem ups_getElem?_ne (l : List Todo) (i j : Nat) (hne : j ≠ i) :
    (updateParentStep l i)[j]? = l[j]? := by
  unfold updateParentStep
  split
  · rfl
  next todo heq =>
    dsimp only
    split_ifs <;> first | rfl | exact List.getElem?_set_ne (Ne.symm hne)

theorem ups_eq_self_of_nochild (l : List Todo) (i : Nat)
    (h : getDirectChildren l i = []) : updateParentStep l i = l := by
  unfold updateParentStep
  split
  · rfl
  next todo heq =>
    dsimp only
    rw [h]
    simp

theorem ups_completed_self (l : List Todo) (i : Nat) (t : Todo) (ht : l[i]? = some t)
    (hd : t.depth < 2) (hch : getDirectChildren l i ≠ []) :
    completedAt (updateParentStep l i) i =
      some ((getDirectChildren l i).all fun child => child.completed) := by
  have hi : i < l.length := (List.getElem?_eq_some.mp ht).1
  unfold updateParentStep completedAt
  rw [ht]
  dsimp only
  rw [if_pos hd, if_pos (by simpa [List.length_pos] using hch), any_not_eq_not_all]
  by_cases hall : ((getDirectChildren l i).all fun child => child.completed) = true
  · rw [hall]
    by_cases hc : t.completed
    · rw [if_neg (by simp [hc]), if_neg (by simp), ht]
      simp [hc]
    · rw [if_pos ⟨rfl, by simp [hc]⟩, List.getElem?_set_self hi]
      rfl
  · rw [Bool.not_eq_true] at hall
    rw [hall]
    by_cases hc : t.completed
    · rw [if_neg (by simp [hall]), if_pos ⟨rfl, hc⟩, List.getElem?_set_self hi]
      simp [hall]
    · rw [if_neg (by simp [hc]), if_neg (by simp [hc]), ht]
      simp [hc, hall]

theorem ups_eq_self_of_all (l : List Todo) (i : Nat) (t : Todo) (ht : l[i]? = some t)
    (hc : t.completed = true)
    (hall : (getDirectChildren l i).all (fun child => child.completed) = true) :
    updateParentStep l i = l := by
  unfold updateParentStep
  rw [ht]
  dsimp only
  split_ifs with h1 h2 h3 h4 <;>
    first
    | rfl
    | (exact absurd h3.2 (by simp [hc]))
    | (exact absurd h4.1 (by simp [any_not_eq_not_all, hall]))

theorem gdcAux_nil_congr {pd : Nat} {r r' : List Todo}
    (h : r'.map Todo.depth = r.map Todo.depth) :
    (getDirectChildrenAux pd r' = [] ↔ getDirectChildrenAux pd r = []) := by
  induction r generalizing r' with
  | nil =>
    cases r' with
    | nil => rfl
    | cons a t => simp at h
  | cons a t ih =>
    cases r' with
    | nil => simp at h
    | cons a' t' =>
      simp only [List.map_cons, List.cons.injEq] at h
      unfold getDirectChildrenAux
      rw [h.1]
      split_ifs with h1 h2
      · rfl
      · simp
      · exact ih h.2

theorem gdc_congr {l l' : List Todo} {p : Nat}
    (hp : (l'[p]?).map Todo.depth = (l[p]?).map Todo.depth)
    (hdrop : l'.drop (p + 1) = l.drop (p + 1)) :
    getDirectChildren l' p = getDirectChildren l p := by
  unfold getDirectChildren
  cases h1 : l'[p]? with
  | none =>
    cases h2 : l[p]? with
    | none => rfl
    | some b => rw [h1, h2] at hp; simp at hp
  | some a =>
    cases h2 : l[p]? with
    | none => rw [h1, h2] at hp; simp at hp
    | some b =>
      rw [h1, h2] at hp
      simp only [Option.map_some'] at hp
      dsimp only
      rw [hdrop, Option.some_injective _ hp]

theorem gdc_nil_congr {l l' : List Todo} (h : l'.map shape = l.map shape) (p : Nat) :
    (getDirectChildren l' p = [] ↔ getDirectChildren l p = []) := by
  have hd := map_depth_of_map_shape h
  unfold getDirectChildren
  cases h1 : l'[p]? with
  | none =>
    cases h2 : l[p]? with
    | none => rfl
    | some b =>
      have := map_shape_getElem? h p
      rw [h1, h2] at this
      simp at this
  | some a =>
    cases h2 : l[p]? with
    | none =>
      have := map_shape_getElem? h p
      rw [h1, h2] at this
      simp at this
    | some b =>
      have hab : a.depth = b.depth := by
        have := map_shape_getElem? h p
        rw [h1, h2] at this
        exact (shape_eq_iff.mp (by simpa using this)).2.2.1
      dsimp only
      rw [hab]
      exact gdcAux_nil_congr (by rw [List.map_drop, List.map_drop, hd])

theorem map_depth_getElem? {l l' : List Todo} (h : l'.map shape = l.map shape) (j : Nat) :
    (l'[j]?).map Todo.depth = (l[j]?).map Todo.depth := by
  have := congrArg (fun x => x[j]?) (map_depth_of_map_shape h)
  simpa [List.getElem?_map] using this

theorem ups_drop (l : List Todo) (k n : Nat) (hn : k < n) :
    (updateParentStep l k).drop n = l.drop n := by
  unfold updateParentStep
  split
  · rfl
  next todo heq =>
    dsimp only
    split_ifs <;> first | rfl | (rw [List.drop_set]; simp [hn])

theorem upg_map_shape (k : Nat) : ∀ (l : List Todo),
    (updateParentGo l k).map shape = l.map shape := by
  induction k with
  | zero => intro l; rfl
  | succ k ih =>
    intro l
    unfold updateParentGo
    rw [ih, ups_map_shape]

theorem upg_getElem?_ge (k : Nat) : ∀ (l : List Todo) (j : Nat), k ≤ j →
    (updateParentGo l k)[j]? = l[j]? := by
  induction k with
  | zero => intros; rfl
  | succ k ih =>
    intro l j hj
    unfold updateParentGo
    rw [ih _ _ (Nat.le_of_succ_le hj), ups_getElem?_ne _ _ _ (by omega)]

theorem upg_drop (k : Nat) (l : List Todo) (n : Nat) (hn : k ≤ n) :
    (updateParentGo l k).drop n = l.drop n := by
  apply List.ext_getElem?
  intro m
  rw [List.getElem?_drop, List.getElem?_drop, upg_getElem?_ge k l (n + m) (by omega)]

theorem gdcAux_mem_idx {pd : Nat} {rest : List Todo} {t : Todo}
    (h : t ∈ getDirectChildrenAux pd rest) :
    ∃ j : Nat, rest[j]? = some t ∧ t.depth = pd + 1 ∧
      ∀ m : Nat, m < j → ∀ u : Todo, rest[m]? = some u → pd < u.depth := by
  induction rest with
  | nil => simp [getDirectChildrenAux] at h
  | cons a r ih =>
    unfold getDirectChildrenAux at h
    split_ifs at h with h1 h2
    · simp at h
    · rcases List.mem_cons.mp h with rfl | hmem
      · exact ⟨0, by simp, h2, fun m hm => by omega⟩
      · obtain ⟨j, hj, hd, hbet⟩ := ih hmem
        refine ⟨j + 1, by simpa using hj, hd, ?_⟩
        intro m hm u hu
        cases m with
        | zero =>
          simp only [List.getElem?_cons_zero] at hu
          cases hu
          omega
        | succ m =>
          exact hbet m (by omega) u (by simpa using hu)
    · obtain ⟨j, hj, hd, hbet⟩ := ih h
      refine ⟨j + 1, by simpa using hj, hd, ?_⟩
      intro m hm u hu
      cases m with
      | zero =>
        simp only [List.getElem?_cons_zero] at hu
        cases hu
        omega
      | succ m =>
        exact hbet m (by omega) u (by simpa using hu)

theorem gdc_mem_idx {l : List Todo} {k : Nat} {t : Todo}
    (h : t ∈ getDirectChildren l k) :
    ∃ j, k < j ∧ l[j]? = some t ∧ t.depth = depthAt l k + 1 ∧
      ∀ m, k < m → m < j → depthAt l k < depthAt l m := by
  unfold getDirectChildren at h
  cases hk : l[k]? with
  | none => rw [hk] at h; simp at h
  | some pt =>
    rw [hk] at h
    dsimp only at h
    obtain ⟨j0, hj0, hd, hbet⟩ := gdcAux_mem_idx h
    rw [List.getElem?_drop] at hj0
    have hdk : depthAt l k = pt.depth := by simp [depthAt, hk]
    refine ⟨k + 1 + j0, by omega, hj0, by rw [hdk]; exact hd, ?_⟩
    intro m hm1 hm2
    have hm0 : m = k + 1 + (m - (k + 1)) := by omega
    have hsome : ∃ u, l[m]? = some u := by
      have hmlen : m < l.length := by
        have := (List.getElem?_eq_some.mp hj0).1
        omega
      exact ⟨l[m], List.getElem?_eq_getElem hmlen⟩
    obtain ⟨u, hu⟩ := hsome
    have := hbet (m - (k + 1)) (by omega) u (by rw [List.getElem?_drop, ← hm0]; exact hu)
    rw [hdk]
    simpa [depthAt, hu] using this

theorem upg_nochild_completed (k : Nat) : ∀ (l : List Todo) (j : Nat),
    getDirectChildren l j = [] →
    completedAt (updateParentGo l k) j = completedAt l j := by
  induction k with
  | zero => intros; rfl
  | succ k ih =>
    intro l j hch
    unfold updateParentGo
    have hsh := ups_map_shape l k
    rw [ih _ _ ((gdc_nil_congr hsh j).mpr hch)]
    by_cases hk : j = k
    · subst hk
      rw [ups_eq_self_of_nochild l j hch]
    · unfold completedAt
      rw [ups_getElem?_ne l k j hk]

theorem upg_keeps_true (l0 : List Todo) (P : Nat → Prop)
    (hcl : ∀ k j, P k → k < j → j < l0.length → depthAt l0 j = depthAt l0 k + 1 →
      (∀ m, k < m → m < j → depthAt l0 k < depthAt l0 m) → P j) :
    ∀ (k : Nat) (l : List Todo), l.map shape = l0.map shape →
      (∀ j, P j → completedAt l j = some true) →
      ∀ j, P j → completedAt (updateParentGo l k) j = some true := by
  intro k
  induction k with
  | zero => intro l _ htrue j hj; exact htrue j hj
  | succ k ih =>
    intro l hsh htrue j hj
    unfold updateParentGo
    refine ih (updateParentStep l k) ((ups_map_shape l k).trans hsh) ?_ j hj
    intro j' hj'
    by_cases hk : j' = k
    · subst hk
      have hck := htrue j' hj'
      unfold completedAt at hck
      cases ht : l[j']? with
      | none => rw [ht] at hck; simp at hck
      | some t =>
        rw [ht] at hck
        simp only [Option.map_some'] at hck
        have hc : t.completed = true := by simpa using hck
        have hall : (getDirectChildren l j').all (fun child => child.completed) = true := by
          rw [List.all_eq_true]
          intro t' ht'
          obtain ⟨j2, hlt, hj2, hdep, hbet⟩ := gdc_mem_idx ht'
          have hlen : j2 < l0.length := by
            rw [← map_shape_length hsh]
            exact (List.getElem?_eq_some.mp hj2).1
          have hPj2 : P j2 :=
            hcl j' j2 hj' hlt hlen
              (by rw [← depthAt_congr hsh j2, ← depthAt_congr hsh j']
                  have h2 : depthAt l j2 = t'.depth := by simp [depthAt, hj2]
                  rw [h2]
                  exact hdep)
              (by intro m hm1 hm2
                  rw [← depthAt_congr hsh m, ← depthAt_congr hsh j']
                  exact hbet m hm1 hm2)
          have := htrue j2 hPj2
          unfold completedAt at this
          rw [hj2] at this
          simpa using this
        rw [ups_eq_self_of_all l j' t ht hc hall]
        exact htrue j' hj'
    · unfold completedAt
      rw [ups_getElem?_ne l k j' hk]
      exact htrue j' hj'

theorem upg_invariant (k : Nat) : ∀ (l : List Todo), k ≤ l.length →
    ∀ j, j < k → depthAt l j < 2 → getDirectChildren l j ≠ [] →
      (completedAt (updateParentGo l k) j = some true ↔
        (getDirectChildren (updateParentGo l k) j).all (fun child => child.completed) = true) := by
  induction k with
  | zero => intro l _ j hj; omega
  | succ k ih =>
    intro l hk j hj hd hch
    unfold updateParentGo
    have hsh := ups_map_shape l k
    rcases Nat.lt_or_ge j k with hjk | hjk
    · exact ih (updateParentStep l k)
        (by rw [map_shape_length hsh]; omega) j hjk
        (by rw [depthAt_congr hsh]; exact hd)
        (fun hnil => hch ((gdc_nil_congr hsh j).mp hnil))
    · have hjk' : j = k := by omega
      subst hjk'
      have hget : (updateParentGo (updateParentStep l j) j)[j]? = (updateParentStep l j)[j]? :=
        upg_getElem?_ge j _ j (le_refl j)
      have hgdc : getDirectChildren (updateParentGo (updateParentStep l j) j) j =
          getDirectChildren l j := by
        have h1 : getDirectChildren (updateParentGo (updateParentStep l j) j) j =
            getDirectChildren (updateParentStep l j) j := by
          apply gdc_congr
          · rw [hget]
          · rw [upg_drop j _ (j + 1) (by omega)]
        have h2 : getDirectChildren (updateParentStep l j) j = getDirectChildren l j := by
          apply gdc_congr
          · exact map_depth_getElem? hsh j
          · exact ups_drop l j (j + 1) (by omega)
        rw [h1, h2]
      have hjlen : j < l.length := by omega
      have ht : l[j]? = some l[j] := List.getElem?_eq_getElem hjlen
      have htd : (l[j]).depth < 2 := by
        have : depthAt l j = (l[j]).depth := by simp [depthAt, ht]
        omega
      have hself := ups_completed_self l j (l[j]) ht htd hch
      have hcg : completedAt (updateParentGo (updateParentStep l j) j) j =
          completedAt (updateParentStep l j) j := by
        unfold completedAt
        rw [hget]
      rw [hcg, hself, hgdc]
      simp

theorem ucc_length (l : List Todo) (p i : Nat) (c : Bool) (hpi : p < i) :
    (uccGo l p i c hpi).val.length = l.length :=
  (uccGo l p i c hpi).property

theorem ucc_map_shape (l : List Todo) (p i : Nat) (c : Bool) (hpi : p < i) :
    (uccGo l p i c hpi).val.map shape = l.map shape := by
  rw [uccGo]
  split
  next hi =>
    dsimp only
    split_ifs with h1 h2 h3
    · rfl
    · rw [ucc_map_shape, ucc_map_shape]
      exact map_shape_set c (by rw [List.getElem?_eq_getElem hi]; rfl)
    · rw [ucc_map_shape]
      exact map_shape_set c (by rw [List.getElem?_eq_getElem hi]; rfl)
    · exact ucc_map_shape l p (i + 1) c (Nat.lt_succ_of_lt hpi)
  next => rfl
termination_by (l.length - p, l.length - i)
decreasing_by
all_goals (try simp only [ucc_length, List.length_set])
all_goals first
  | (apply Prod.Lex.left
     omega)
  | (apply Prod.Lex.right
     omega)

theorem ucc_mono (l : List Todo) (p i : Nat) (hpi : p < i) (j : Nat)
    (h : completedAt l j = some true) :
    completedAt (uccGo l p i true hpi).val j = some true := by
  rw [uccGo]
  split
  next hi =>
    dsimp only
    split_ifs with h1 h2
    · exact h
    · refine ucc_mono _ p (i + 1) (Nat.lt_succ_of_lt hpi) j ?_
      refine ucc_mono _ i (i + 1) (Nat.lt_succ_self i) j ?_
      unfold completedAt at h ⊢
      by_cases hij : i = j
      · subst hij
        rw [List.getElem?_set_self hi]
        rfl
      · rw [List.getElem?_set_ne hij]
        exact h
    · exact absurd rfl ‹¬(true = true)›
    · exact ucc_mono l p (i + 1) (Nat.lt_succ_of_lt hpi) j h
  next => exact h
termination_by (l.length - p, l.length - i)
decreasing_by
all_goals (try simp only [ucc_length, List.length_set])
all_goals first
  | (apply Prod.Lex.left
     omega)
  | (apply Prod.Lex.right
     omega)

theorem ucc_getElem?_lt (l : List Todo) (p i : Nat) (c : Bool) (hpi : p < i) (j : Nat)
    (hj : j < i) :
    (uccGo l p i c hpi).val[j]? = l[j]? := by
  rw [uccGo]
  split
  next hi =>
    dsimp only
    split_ifs with h1 h2 h3
    · rfl
    · rw [ucc_getElem?_lt _ p (i + 1) c _ j (by omega),
        ucc_getElem?_lt _ i (i + 1) c _ j (by omega),
        List.getElem?_set_ne (by omega)]
    · rw [ucc_getElem?_lt _ p (i + 1) c _ j (by omega),
        List.getElem?_set_ne (by omega)]
    · exact ucc_getElem?_lt l p (i + 1) c (Nat.lt_succ_of_lt hpi) j (by omega)
  next => rfl
termination_by (l.length - p, l.length - i)
decreasing_by
all_goals (try simp only [ucc_length, List.length_set])
all_goals first
  | (apply Prod.Lex.left
     omega)
  | (apply Prod.Lex.right
     omega)

theorem stepwise_pairs : ∀ {l : List Todo}, stepwiseDepths l = true → stepwisePairs l := by
  intro l
  induction l with
  | nil => intro _ j a b ha; simp at ha
  | cons x t ih =>
    intro h j a b ha hb
    cases t with
    | nil =>
      cases j with
      | zero => simp at hb
      | succ j => simp at hb
    | cons y t2 =>
      rw [stepwiseDepths] at h
      rw [Bool.and_eq_true] at h
      cases j with
      | zero =>
        simp only [List.getElem?_cons_zero] at ha
        simp only [List.getElem?_cons_succ, List.getElem?_cons_zero] at hb
        cases ha
        cases hb
        exact of_decide_eq_true h.1
      | succ j =>
        exact ih h.2 j a b (by simpa using ha) (by simpa using hb)

theorem stepwisePairs_congr {l l' : List Todo} (h : l'.map shape = l.map shape)
    (hsw : stepwisePairs l) : stepwisePairs l' := by
  intro j a b ha hb
  have h1 := map_depth_getElem? h j
  have h2 := map_depth_getElem? h (j + 1)
  rw [ha] at h1
  rw [hb] at h2
  cases ha0 : l[j]? with
  | none => rw [ha0] at h1; simp at h1
  | some a0 =>
    cases hb0 : l[j + 1]? with
    | none => rw [hb0] at h2; simp at h2
    | some b0 =>
      rw [ha0] at h1
      rw [hb0] at h2
      simp only [Option.map_some'] at h1 h2
      have := hsw j a0 b0 ha0 hb0
      have e1 : a.depth = a0.depth := by simpa using h1
      have e2 : b.depth = b0.depth := by simpa using h2
      omega

theorem inRun_congr {l l' : List Todo} (h : l'.map shape = l.map shape) (p j : Nat) :
    inRun l' p j ↔ inRun l p j := by
  unfold inRun
  rw [map_shape_length h]
  constructor
  · rintro ⟨a1, a2, a3⟩
    refine ⟨a1, a2, fun m hm1 hm2 => ?_⟩
    rw [← depthAt_congr h p, ← depthAt_congr h m]
    exact a3 m hm1 hm2
  · rintro ⟨a1, a2, a3⟩
    refine ⟨a1, a2, fun m hm1 hm2 => ?_⟩
    rw [depthAt_congr h p, depthAt_congr h m]
    exact a3 m hm1 hm2

theorem ucc_child_shape (l : List Todo) (i : Nat) (hi : i < l.length) (c : Bool)
    (h : i < i + 1) :
    (uccGo (l.set i { l.get ⟨i, hi⟩ with completed := c }) i (i + 1) c h).val.map shape =
      l.map shape := by
  rw [ucc_map_shape]
  exact map_shape_set c (by rw [List.getElem?_eq_getElem hi]; rfl)

theorem uccGo_run (l : List Todo) (p i : Nat) (hpi : p < i)
    (hsw : stepwisePairs l) (hp : p < l.length)
    (inv1 : ∀ j, j < i → inRun l p j → completedAt l j = some true)
    (inv2 : ∀ j, i ≤ j → inRun l p j →
      (∀ m, i ≤ m → m ≤ j → depthAt l p + 2 ≤ depthAt l m) →
      completedAt l j = some true) :
    ∀ j, inRun l p j → completedAt (uccGo l p i true hpi).val j = some true := by
  rw [uccGo]
  split
  next hi =>
    dsimp only
    have hdp : depthAt l p = (l.get ⟨p, Nat.lt_trans hpi hi⟩).depth := by
      simp [depthAt, List.getElem?_eq_getElem (Nat.lt_trans hpi hi)]
    have hdi : depthAt l i = (l.get ⟨i, hi⟩).depth := by
      simp [depthAt, List.getElem?_eq_getElem hi]
    split_ifs with h1 h2 h3
    · intro j hj
      obtain ⟨hj1, hj2, hj3⟩ := hj
      refine inv1 j ?_ ⟨hj1, hj2, hj3⟩
      by_contra hge
      push_neg at hge
      have hd := hj3 i (by omega) hpi
      rw [hdp, hdi] at hd
      omega
    · intro j hj
      have hsh1 : (l.set i { l.get ⟨i, hi⟩ with completed := true }).map shape = l.map shape :=
        map_shape_set true (by rw [List.getElem?_eq_getElem hi]; rfl)
      have hshX := ucc_child_shape l i hi true (Nat.lt_succ_self i)
      apply uccGo_run _ p (i + 1) (Nat.lt_succ_of_lt hpi)
        (stepwisePairs_congr hshX hsw)
        (by rw [map_shape_length hshX]; exact hp)
        ?_ ?_ j ((inRun_congr hshX p j).mpr hj)
      · intro j0 hj0 hrun
        have hrun_l := (inRun_congr hshX p j0).mp hrun
        rcases Nat.lt_or_ge j0 i with hlt | hge
        · have hc := inv1 j0 hlt hrun_l
          apply ucc_mono
          unfold completedAt at hc ⊢
          rw [List.getElem?_set_ne (by omega)]
          exact hc
        · have hj0i : j0 = i := by omega
          subst hj0i
          apply ucc_mono
          unfold completedAt
          rw [List.getElem?_set_self hi]
          rfl
      · intro j0 hge hrun hdeep
        have hrun_l := (inRun_congr hshX p j0).mp hrun
        obtain ⟨hr1, hr2, hr3⟩ := hrun_l
        have hdeep_l : ∀ m, i + 1 ≤ m → m ≤ j0 → depthAt l p + 2 ≤ depthAt l m := by
          intro m hm1 hm2
          rw [← depthAt_congr hshX p, ← depthAt_congr hshX m]
          exact hdeep m hm1 hm2
        have hd1i : depthAt (l.set i { l.get ⟨i, hi⟩ with completed := true }) i =
            (l.get ⟨i, hi⟩).depth := by
          simp [depthAt, List.getElem?_set_self hi]
        apply uccGo_run _ i (i + 1) (Nat.lt_succ_self i)
          (stepwisePairs_congr hsh1 hsw)
          (by rw [map_shape_length hsh1]; exact hi)
          ?_ ?_ j0 ?_
        · intro j1 hj1 hrun1
          obtain ⟨ha, _, _⟩ := hrun1
          omega
        · intro j1 hj1 hrun1 hdeep1
          exfalso
          obtain ⟨hb1, hb2, hb3⟩ := hrun1
          have hi1len : i + 1 < l.length := by
            have := map_shape_length hsh1
            omega
          have hstep := hsw i (l.get ⟨i, hi⟩) (l.get ⟨i + 1, hi1len⟩)
            (by rw [List.getElem?_eq_getElem hi]; rfl)
            (by rw [List.getElem?_eq_getElem hi1len]; rfl)
          have hdd := hdeep1 (i + 1) (le_refl (i + 1)) hj1
          rw [hd1i] at hdd
          have hd1s : depthAt (l.set i { l.get ⟨i, hi⟩ with completed := true }) (i + 1) =
              (l.get ⟨i + 1, hi1len⟩).depth := by
            rw [depthAt_congr hsh1]
            simp [depthAt, List.getElem?_eq_getElem hi1len]
          rw [hd1s] at hdd
          omega
        · refine ⟨by omega, by rw [map_shape_length hsh1]; omega, ?_⟩
          intro m hm1 hm2
          rw [depthAt_congr hsh1 m, hd1i]
          have := hdeep_l m (by omega) hm1
          rw [hdp] at this
          rw [h2]
          omega
    · exact absurd rfl h3
    · intro j hj
      have hgets : depthAt l i = (l.get ⟨i, hi⟩).depth := hdi
      apply uccGo_run l p (i + 1) (Nat.lt_succ_of_lt hpi) hsw hp ?_ ?_ j hj
      · intro j0 hj0 hrun
        rcases Nat.lt_or_ge j0 i with hlt | hge
        · exact inv1 j0 hlt hrun
        · have hj0i : j0 = i := by omega
          subst hj0i
          refine inv2 j0 (le_refl j0) hrun ?_
          intro m hm1 hm2
          have hm : m = j0 := by omega
          subst hm
          rw [hdp, hdi]
          omega
      · intro j0 hge hrun hdeep
        refine inv2 j0 (by omega) hrun ?_
        intro m hm1 hm2
        rcases Nat.lt_or_ge m (i + 1) with hmlt | hmge
        · have hm : m = i := by omega
          subst hm
          rw [hdp, hdi]
          omega
        · exact hdeep m hmge hm2
  next hi =>
    intro j hj
    obtain ⟨hj1, hj2, hj3⟩ := hj
    exact inv1 j (by omega) ⟨hj1, hj2, hj3⟩
termination_by (l.length - p, l.length - i)
decreasing_by
all_goals (try simp only [ucc_length, List.length_set])
all_goals first
  | (apply Prod.Lex.left
     omega)
  | (apply Prod.Lex.right
     omega)

theorem toggle_run_true (todos : List Todo) (id : String) (r : List Todo)
    (hsw : stepwiseDepths todos = true)
    (hr : toggleTodo todos id = some r)
    (hflip : completedAt todos (todos.findIdx (fun todo => todo.id = id)) = some false) :
    ∀ j, inRun todos (todos.findIdx (fun todo => todo.id = id)) j →
      completedAt r j = some true := by
  intro j hj
  unfold toggleTodo at hr
  by_cases hlen : todos.findIdx (fun todo => todo.id = id) < todos.length
  case neg =>
    rw [dif_neg hlen] at hr
    cases hr
  rw [dif_pos hlen] at hr
  dsimp only at hr
  have hc : (todos.get ⟨todos.findIdx (fun todo => todo.id = id), hlen⟩).completed = false := by
    unfold completedAt at hflip
    rw [List.getElem?_eq_getElem hlen] at hflip
    simpa using hflip
  rw [if_pos (by rw [hc]; rfl)] at hr
  rw [show ({ todos.get ⟨todos.findIdx (fun todo => todo.id = id), hlen⟩ with
      completed := !(todos.get ⟨todos.findIdx (fun todo => todo.id = id), hlen⟩).completed } : Todo) =
    { todos.get ⟨todos.findIdx (fun todo => todo.id = id), hlen⟩ with completed := true } from by
      rw [hc]
      rfl] at hr
  have hr2 := (Option.some_injective _ hr).symm
  subst hr2
  have hsh_upd : (todos.set (todos.findIdx (fun todo => todo.id = id))
      { todos.get ⟨todos.findIdx (fun todo => todo.id = id), hlen⟩ with
        completed := true }).map shape = todos.map shape :=
    map_shape_set true (by rw [List.getElem?_eq_getElem hlen]; rfl)
  have hpairs := stepwise_pairs hsw
  have hrun_upd := (inRun_congr hsh_upd (todos.findIdx (fun todo => todo.id = id)) j).mpr hj
  unfold updateChildrenCompletion
  have hd_set : depthAt (todos.set (todos.findIdx (fun todo => todo.id = id))
      { todos.get ⟨todos.findIdx (fun todo => todo.id = id), hlen⟩ with completed := true })
      (todos.findIdx (fun todo => todo.id = id)) =
      (todos.get ⟨todos.findIdx (fun todo => todo.id = id), hlen⟩).depth := by
    simp [depthAt, List.getElem?_set_self hlen]
  have hcasc : ∀ j0, inRun (todos.set (todos.findIdx (fun todo => todo.id = id))
      { todos.get ⟨todos.findIdx (fun todo => todo.id = id), hlen⟩ with completed := true })
      (todos.findIdx (fun todo => todo.id = id)) j0 →
      completedAt (uccGo (todos.set (todos.findIdx (fun todo => todo.id = id))
        { todos.get ⟨todos.findIdx (fun todo => todo.id = id), hlen⟩ with completed := true })
        (todos.findIdx (fun todo => todo.id = id))
        (todos.findIdx (fun todo => todo.id = id) + 1) true
        (Nat.lt_succ_self _)).val j0 = some true := by
    apply uccGo_run
    · exact stepwisePairs_congr hsh_upd hpairs
    · rw [map_shape_length hsh_upd]
      exact hlen
    · intro j1 hj1 hrun1
      obtain ⟨ha, _, _⟩ := hrun1
      omega
    · intro j1 hj1 hrun1 hdeep1
      exfalso
      obtain ⟨hb1, hb2, hb3⟩ := hrun1
      have hi1len : todos.findIdx (fun todo => todo.id = id) + 1 < todos.length := by
        have := map_shape_length hsh_upd
        omega
      have hstep := hpairs (todos.findIdx (fun todo => todo.id = id))
        (todos.get ⟨todos.findIdx (fun todo => todo.id = id), hlen⟩)
        (todos.get ⟨todos.findIdx (fun todo => todo.id = id) + 1, hi1len⟩)
        (by rw [List.getElem?_eq_getElem hlen]; rfl)
        (by rw [List.getElem?_eq_getElem hi1len]; rfl)
      have hdd := hdeep1 (todos.findIdx (fun todo => todo.id = id) + 1) (le_refl _) hj1
      rw [hd_set] at hdd
      have hnext : depthAt (todos.set (todos.findIdx (fun todo => todo.id = id))
          { todos.get ⟨todos.findIdx (fun todo => todo.id = id), hlen⟩ with completed := true })
          (todos.findIdx (fun todo => todo.id = id) + 1) =
          (todos.get ⟨todos.findIdx (fun todo => todo.id = id) + 1, hi1len⟩).depth := by
        rw [depthAt_congr hsh_upd]
        simp [depthAt, List.getElem?_eq_getElem hi1len]
      rw [hnext] at hdd
      omega
  have hsh2 : (uccGo (todos.set (todos.findIdx (fun todo => todo.id = id))
      { todos.get ⟨todos.findIdx (fun todo => todo.id = id), hlen⟩ with completed := true })
      (todos.findIdx (fun todo => todo.id = id))
      (todos.findIdx (fun todo => todo.id = id) + 1) true
      (Nat.lt_succ_self _)).val.map shape = todos.map shape :=
    (ucc_map_shape _ _ _ _ _).trans hsh_upd
  unfold updateParentCompletion
  refine upg_keeps_true todos
    (fun j0 => j0 = todos.findIdx (fun todo => todo.id = id) ∨
      inRun todos (todos.findIdx (fun todo => todo.id = id)) j0)
    ?_ _ _ hsh2 ?_ j (Or.inr hj)
  · intro k j0 hPk hkj hjlen hdep hbet
    rcases hPk with rfl | hrunk
    · right
      refine ⟨hkj, hjlen, ?_⟩
      intro m hm1 hm2
      rcases Nat.lt_or_ge m j0 with hmlt | hmge
      · exact hbet m hm2 hmlt
      · have hm : m = j0 := by omega
        subst hm
        omega
    · obtain ⟨a1, a2, a3⟩ := hrunk
      right
      refine ⟨by omega, hjlen, ?_⟩
      intro m hm1 hm2
      rcases le_or_lt m k with hmk | hmk
      · exact a3 m hmk hm2
      · have hdk := a3 k (le_refl k) a1
        rcases Nat.lt_or_ge m j0 with hmlt | hmge
        · have := hbet m hmk hmlt
          omega
        · have hm : m = j0 := by omega
          subst hm
          omega
  · intro j0 hPj0
    rcases hPj0 with rfl | hrun0
    · apply ucc_mono
      unfold completedAt
      rw [List.getElem?_set_self hlen]
      rfl
    · exact hcasc j0 ((inRun_congr hsh_upd _ j0).mpr hrun0)

theorem toggle_eq_downward (todos : List Todo) (id : String) :
    toggleTodo todos id = (toggleDownward todos id).map updateParentCompletion := by
  unfold toggleTodo toggleDownward
  dsimp only
  by_cases h : todos.findIdx (fun todo => todo.id = id) < todos.length
  · rw [dif_pos h, dif_pos h]
    rfl
  · rw [dif_neg h, dif_neg h]
    rfl

theorem toggle_map_shape (todos : List Todo) (id : String) (r : List Todo)
    (hr : toggleTodo todos id = some r) :
    r.map shape = todos.map shape := by
  unfold toggleTodo at hr
  dsimp only at hr
  by_cases h : todos.findIdx (fun todo => todo.id = id) < todos.length
  · rw [dif_pos h] at hr
    have hr2 := (Option.some_injective _ hr).symm
    subst hr2
    unfold updateParentCompletion
    rw [upg_map_shape]
    split_ifs
    · unfold updateChildrenCompletion
      rw [ucc_map_shape]
      exact map_shape_set _ (by rw [List.getElem?_eq_getElem h]; rfl)
    · exact map_shape_set _ (by rw [List.getElem?_eq_getElem h]; rfl)
  · rw [dif_neg h] at hr
    cases hr

theorem toggle_false_downward (todos : List Todo) (id : String)
    (hlen : todos.findIdx (fun todo => todo.id = id) < todos.length)
    (hc : (todos.get ⟨todos.findIdx (fun todo => todo.id = id), hlen⟩).completed = true) :
    toggleDownward todos id = some (todos.set (todos.findIdx (fun todo => todo.id = id))
      { todos.get ⟨todos.findIdx (fun todo => todo.id = id), hlen⟩ with completed := false }) := by
  unfold toggleDownward
  dsimp only
  rw [dif_pos hlen, if_neg (by rw [hc]; simp)]
  rw [show ({ todos.get ⟨todos.findIdx (fun todo => todo.id = id), hlen⟩ with
      completed := !(todos.get ⟨todos.findIdx (fun todo => todo.id = id), hlen⟩).completed } : Todo) =
    { todos.get ⟨todos.findIdx (fun todo => todo.id = id), hlen⟩ with completed := false } from by
      rw [hc]
      rfl]

theorem todoLe_of_ne_depth {a b : Todo} (h : a.depth ≠ b.depth) : todoLe a b = true := by
  simp [todoLe, todoCompare, h]

theorem todoLe_iff_rank {a b : Todo} (h : a.depth = b.depth) :
    (todoLe a b = true ↔ priorityOrder a.priority ≤ priorityOrder b.priority) := by
  simp only [todoLe, todoCompare, h, ne_eq, not_true_eq_false, if_neg, ite_false,
    decide_eq_true_eq]
  omega

theorem todoLe_total_same {a b : Todo} (h : a.depth = b.depth) :
    todoLe a b = true ∨ todoLe b a = true := by
  rw [todoLe_iff_rank h, todoLe_iff_rank h.symm]
  omega

theorem todoLe_trans_same {a b c : Todo} (hab : a.depth = b.depth) (hbc : b.depth = c.depth)
    (h1 : todoLe a b = true) (h2 : todoLe b c = true) : todoLe a c = true := by
  rw [todoLe_iff_rank hab] at h1
  rw [todoLe_iff_rank hbc] at h2
  rw [todoLe_iff_rank (hab.trans hbc)]
  omega

theorem mem_todoMerge : ∀ (xs ys : List Todo) (t : Todo),
    t ∈ todoMerge xs ys ↔ t ∈ xs ∨ t ∈ ys
  | [], ys, t => by simp [todoMerge]
  | x :: xs, [], t => by simp [todoMerge]
  | x :: xs, y :: ys, t => by
    rw [todoMerge]
    split
    · simp only [List.mem_cons, mem_todoMerge xs (y :: ys) t]
      tauto
    · simp only [List.mem_cons, mem_todoMerge (x :: xs) ys t]
      tauto
termination_by xs ys _ => xs.length + ys.length
decreasing_by
all_goals simp only [List.length_cons]
all_goals omega

theorem todoMerge_append_of_le : ∀ (xs ys : List Todo),
    (∀ a ∈ xs, ∀ b ∈ ys, todoLe a b = true) → todoMerge xs ys = xs ++ ys
  | [], ys, _ => by simp [todoMerge]
  | x :: xs, [], _ => by simp [todoMerge]
  | x :: xs, y :: ys, h => by
    rw [todoMerge, if_pos (h x (List.mem_cons_self x xs) y (List.mem_cons_self y ys))]
    rw [todoMerge_append_of_le xs (y :: ys) (fun a ha b hb => h a (List.mem_cons_of_mem x ha) b hb)]
    rfl
termination_by xs ys => xs.length + ys.length
decreasing_by
all_goals simp only [List.length_cons]
all_goals omega

theorem todoMerge_pairwise_same : ∀ (d : Nat) (xs ys : List Todo),
    (∀ t ∈ xs, t.depth = d) → (∀ t ∈ ys, t.depth = d) →
    xs.Pairwise (fun a b => todoLe a b = true) →
    ys.Pairwise (fun a b => todoLe a b = true) →
    (todoMerge xs ys).Pairwise fun a b => todoLe a b = true
  | d, [], ys, _, _, _, hy => by simpa [todoMerge] using hy
  | d, x :: xs, [], _, _, hx, _ => by simpa [todoMerge] using hx
  | d, x :: xs, y :: ys, hxd, hyd, hx, hy => by
    rw [todoMerge]
    rw [List.pairwise_cons] at hx hy
    split
    next hle =>
      rw [List.pairwise_cons]
      constructor
      · intro b hb
        rcases (mem_todoMerge xs (y :: ys) b).mp hb with hbx | hby
        · exact hx.1 b hbx
        · rcases List.mem_cons.mp hby with rfl | hbys
          · exact hle
          · exact @todoLe_trans_same x y b
              (by rw [hxd x (List.mem_cons_self x xs), hyd y (List.mem_cons_self y ys)])
              (by rw [hyd y (List.mem_cons_self y ys), hyd b (List.mem_cons_of_mem y hbys)])
              hle (hy.1 b hbys)
      · exact todoMerge_pairwise_same d xs (y :: ys)
          (fun t ht => hxd t (List.mem_cons_of_mem x ht)) hyd hx.2
          (List.pairwise_cons.mpr hy)
    next hle =>
      have hyx : todoLe y x = true := by
        rcases @todoLe_total_same x y
          (by rw [hxd x (List.mem_cons_self x xs), hyd y (List.mem_cons_self y ys)]) with
          h | h
        · exact absurd h hle
        · exact h
      rw [List.pairwise_cons]
      constructor
      · intro b hb
        rcases (mem_todoMerge (x :: xs) ys b).mp hb with hbx | hbys
        · rcases List.mem_cons.mp hbx with rfl | hbx2
          · exact hyx
          · exact @todoLe_trans_same y x b
              (by rw [hyd y (List.mem_cons_self y ys), hxd x (List.mem_cons_self x xs)])
              (by rw [hxd x (List.mem_cons_self x xs), hxd b (List.mem_cons_of_mem x hbx2)])
              hyx (hx.1 b hbx2)
        · exact hy.1 b hbys
      · exact todoMerge_pairwise_same d (x :: xs) ys hxd
          (fun t ht => hyd t (List.mem_cons_of_mem y ht))
          (List.pairwise_cons.mpr hx) hy.2
termination_by _ xs ys => xs.length + ys.length
decreasing_by
all_goals simp only [List.length_cons]
all_goals omega

theorem mem_todoMergeSort (l : List Todo) (t : Todo) :
    t ∈ todoMergeSort l ↔ t ∈ l := by
  rw [todoMergeSort]
  split
  · exact Iff.rfl
  · rw [mem_todoMerge, mem_todoMergeSort (l.take (l.length / 2)) t,
      mem_todoMergeSort (l.drop (l.length / 2)) t]
    conv_rhs => rw [← List.take_append_drop (l.length / 2) l]
    rw [List.mem_append]
termination_by l.length
decreasing_by
all_goals simp only [List.length_take, List.length_drop]
all_goals omega

theorem todoMergeSort_pairwise_same (d : Nat) (l : List Todo) (hd : ∀ t ∈ l, t.depth = d) :
    (todoMergeSort l).Pairwise fun a b => todoLe a b = true := by
  rw [todoMergeSort]
  split
  next h =>
    cases l with
    | nil => simp
    | cons a l2 =>
      cases l2 with
      | nil => simp
      | cons b l3 => simp at h
  next h =>
    apply todoMerge_pairwise_same d
    · intro t ht
      exact hd t (List.take_subset _ l ((mem_todoMergeSort _ t).mp ht))
    · intro t ht
      exact hd t (List.drop_subset _ l ((mem_todoMergeSort _ t).mp ht))
    · exact todoMergeSort_pairwise_same d (l.take (l.length / 2))
        (fun t ht => hd t (List.take_subset _ l ht))
    · exact todoMergeSort_pairwise_same d (l.drop (l.length / 2))
        (fun t ht => hd t (List.drop_subset _ l ht))
termination_by l.length
decreasing_by
all_goals simp only [List.length_take, List.length_drop]
all_goals omega

theorem todoMergeSort_eq_self {l : List Todo}
    (h : l.Pairwise fun a b => todoLe a b = true) : todoMergeSort l = l := by
  rw [todoMergeSort]
  split
  · rfl
  · next hlen =>
    have hsplit := List.take_append_drop (l.length / 2) l
    rw [← hsplit, List.pairwise_append] at h
    rw [todoMergeSort_eq_self h.1, todoMergeSort_eq_self h.2.1,
      todoMerge_append_of_le _ _ h.2.2, hsplit]
termination_by l.length
decreasing_by
all_goals simp only [List.length_take, List.length_drop]
all_goals omega

theorem pairwise_le_of_ne_depth {l : List Todo}
    (h : l.Pairwise fun a b => a.depth ≠ b.depth) :
    l.Pairwise fun a b => todoLe a b = true :=
  h.imp fun hab => todoLe_of_ne_depth hab

/-- Claim C5 (code bug): the spec says toggling an absent id is a silent
no-op, but `toggleTodo` reads `updated[-1].completed` after `findIndex`
returns `-1` and throws a `TypeError` (modelled by `none`): the call does
not return normally with the store unchanged. -/
theorem claim_C5 :
    toggleTodo exDone "missing" = none ∧ toggleTodo ([] : List Todo) "x" = none := by
  constructor <;> decide

/-- Claim C7: Enter outside composition with non-empty trimmed text appends
exactly one item (trimmed text, `completed = false`, draft depth and
priority) at the end of the store, leaving prior items unchanged, then
clears the text, resets the priority to `normal` and keeps the depth. -/
theorem claim_C7 (e : KeyEvent) (newId : String) (s : AppState)
    (hk : e.key = "Enter") (hcomp : e.isComposing = false)
    (ht : jsTrim s.inputValue ≠ "") :
    (handleKeyDown e newId s).todos =
      s.todos ++ [{ id := newId, text := jsTrim s.inputValue, completed := false,
                    depth := s.inputDepth, priority := s.inputPriority }]
    ∧ (handleKeyDown e newId s).inputValue = ""
    ∧ (handleKeyDown e newId s).inputPriority = Priority.normal
    ∧ (handleKeyDown e newId s).inputDepth = s.inputDepth := by
  unfold handleKeyDown
  rw [if_neg (by simp [hk]), if_neg (by simp [hk]), if_neg (by simp [hk]),
    if_neg (by simp [hk]), if_pos ⟨hk, ht, hcomp⟩]
  unfold addTodo
  rw [if_neg ht]
  exact ⟨rfl, rfl, rfl, rfl⟩

/-- Witness for claim C7 at a concrete draft with surrounding whitespace. -/
theorem claim_C7_witness :
    (handleKeyDown enterEvent "99" exDraft).todos =
      exDone ++ [{ id := "99", text := "hello", completed := false, depth := 2,
                   priority := Priority.urgent }]
    ∧ (handleKeyDown enterEvent "99" exDraft).inputValue = ""
    ∧ (handleKeyDown enterEvent "99" exDraft).inputPriority = Priority.normal
    ∧ (handleKeyDown enterEvent "99" exDraft).inputDepth = 2 := by
  have h := claim_C7 enterEvent "99" exDraft rfl rfl (by decide)
  refine ⟨?_, h.2.1, h.2.2.1, h.2.2.2⟩
  rw [h.1]
  decide

/-- Claim C8: Enter on a draft whose text trims to the empty string leaves
the whole state (store, draft depth, draft priority) unchanged. -/
theorem claim_C8 (e : KeyEvent) (newId : String) (s : AppState)
    (hk : e.key = "Enter") (ht : jsTrim s.inputValue = "") :
    handleKeyDown e newId s = s := by
  unfold handleKeyDown
  rw [if_neg (by simp [hk]), if_neg (by simp [hk]), if_neg (by simp [hk]),
    if_neg (by simp [hk]), if_neg (by simp [ht])]

/-- Witness for claim C8 at a whitespace-only draft. -/
theorem claim_C8_witness : handleKeyDown enterEvent "99" exBlankDraft = exBlankDraft :=
  claim_C8 enterEvent "99" exBlankDraft rfl (by decide)

/-- Claim C9 (code bug): ids come from `Date.now().toString()`, so two
commits within the same millisecond assign the same id to two distinct
items — ids are not pairwise distinct as the spec asserts. -/
theorem claim_C9 :
    exDupC.todos.map (fun t => t.id) = ["1730000000000", "1730000000000"] ∧
    exDupC.todos.map (fun t => t.text) = ["buy milk", "walk dog"] := by
  constructor <;> decide

/-- Claim C10: toggling an existing id changes only completion flags — the
result has the same length and the same id, text, depth and priority at
every position. -/
theorem claim_C10 (todos : List Todo) (id : String) (r : List Todo)
    (hr : toggleTodo todos id = some r) :
    r.length = todos.length ∧ r.map shape = todos.map shape := by
  have h := toggle_map_shape todos id r hr
  exact ⟨map_shape_length h, h⟩

/-- Witness for claim C10 on the three-level family store. -/
theorem claim_C10_witness :
    ((toggleTodo exFamily "R").getD []).length = exFamily.length ∧
    ((toggleTodo exFamily "R").getD []).map shape = exFamily.map shape := by
  have hres : toggleTodo exFamily "R" =
      some [{ id := "R", text := "R", completed := true, depth := 0, priority := .normal },
            { id := "B", text := "B", completed := true, depth := 1, priority := .normal },
            { id := "G", text := "G", completed := true, depth := 2, priority := .normal },
            { id := "C", text := "C", completed := true, depth := 1, priority := .normal }] := by
    simp [toggleTodo, exFamily, updateChildrenCompletion, uccGo, updateParentCompletion,
      updateParentGo, updateParentStep, getDirectChildren, getDirectChildrenAux,
      List.findIdx, List.findIdx.go]
  have h := claim_C10 exFamily "R" _ hres
  rw [hres]
  exact h

/-- Claim C1 (amended): on a store satisfying the pre-order flattening
invariant (each item's depth exceeds its predecessor's by at most one),
toggling an item whose flag was `false` sets `completed = true` on every
item of the maximal contiguous run following the target whose depth is
strictly greater than the target's depth. -/
theorem claim_C1 (todos : List Todo) (id : String) (r : List Todo)
    (hsw : stepwiseDepths todos = true)
    (hr : toggleTodo todos id = some r)
    (hflip : completedAt todos (todos.findIdx (fun todo => todo.id = id)) = some false) :
    ∀ j, inRun todos (todos.findIdx (fun todo => todo.id = id)) j →
      completedAt r j = some true :=
  toggle_run_true todos id r hsw hr hflip

/-- Counterexample to claim C1 as stated: in the store `[depth 0, depth 2]`
(reachable in the app), toggling the root to `true` leaves the depth-2 item
of its descendant run incomplete, because the cascade only recurses through
children at exactly depth + 1. -/
theorem claim_C1_cex :
    exDepthJump.findIdx (fun todo => todo.id = "A") = 0 ∧
    completedAt exDepthJump 0 = some false ∧
    inRun exDepthJump 0 1 ∧
    (toggleTodo exDepthJump "A").map (fun r => completedAt r 0) = some (some true) ∧
    (toggleTodo exDepthJump "A").map (fun r => completedAt r 1) = some (some false) := by
  have hres : toggleTodo exDepthJump "A" =
      some [{ id := "A", text := "A", completed := true, depth := 0, priority := .normal },
            { id := "X", text := "X", completed := false, depth := 2, priority := .normal }] := by
    simp [toggleTodo, exDepthJump, updateChildrenCompletion, uccGo, updateParentCompletion,
      updateParentGo, updateParentStep, getDirectChildren, getDirectChildrenAux,
      List.findIdx, List.findIdx.go]
  refine ⟨by decide, by decide, by decide, ?_, ?_⟩ <;> rw [hres] <;> decide

/-- Witness for claim C1: completing the root of the three-level family
store completes the grandchild at index 2 of its run. -/
theorem claim_C1_witness :
    completedAt ((toggleTodo exFamily "R").getD []) 2 = some true := by
  have hres : toggleTodo exFamily "R" =
      some [{ id := "R", text := "R", completed := true, depth := 0, priority := .normal },
            { id := "B", text := "B", completed := true, depth := 1, priority := .normal },
            { id := "G", text := "G", completed := true, depth := 2, priority := .normal },
            { id := "C", text := "C", completed := true, depth := 1, priority := .normal }] := by
    simp [toggleTodo, exFamily, updateChildrenCompletion, uccGo, updateParentCompletion,
      updateParentGo, updateParentStep, getDirectChildren, getDirectChildrenAux,
      List.findIdx, List.findIdx.go]
  rw [hres]
  exact claim_C1 exFamily "R" _ (by decide) hres (by decide) 2 (by decide)

/-- Claim C2: after toggling an existing id, every item of depth below 2
with at least one direct child is completed exactly when all its direct
children are completed, and every item with no direct children keeps the
completion flag it had after the downward pass. -/
theorem claim_C2 (todos : List Todo) (id : String) (m r : List Todo)
    (hm : toggleDownward todos id = some m)
    (hr : toggleTodo todos id = some r) :
    (∀ j (hj : j < r.length), (r.get ⟨j, hj⟩).depth < 2 →
      getDirectChildren r j ≠ [] →
      ((r.get ⟨j, hj⟩).completed = true ↔
        (getDirectChildren r j).all (fun child => child.completed) = true))
    ∧ (∀ j, getDirectChildren m j = [] → completedAt r j = completedAt m j) := by
  have hb := toggle_eq_downward todos id
  rw [hm, hr] at hb
  have hbEq : r = updateParentCompletion m := by
    simpa using hb
  have hshr : r.map shape = m.map shape := by
    rw [hbEq]
    unfold updateParentCompletion
    exact upg_map_shape m.length m
  constructor
  · intro j hj hd hch
    have hjm : j < m.length := by
      rw [← map_shape_length hshr]
      exact hj
    have hdm : depthAt m j < 2 := by
      rw [← depthAt_congr hshr j]
      simpa [depthAt, List.getElem?_eq_getElem hj] using hd
    have hchm : getDirectChildren m j ≠ [] := fun hnil =>
      hch ((gdc_nil_congr hshr j).mpr hnil)
    have hinv := upg_invariant m.length m (le_refl m.length) j hjm hdm hchm
    rw [← updateParentCompletion, ← hbEq] at hinv
    have hcompl : completedAt r j = some ((r.get ⟨j, hj⟩).completed) := by
      unfold completedAt
      rw [List.getElem?_eq_getElem hj]
      rfl
    rw [hcompl] at hinv
    simpa using hinv
  · intro j hch
    rw [hbEq]
    unfold updateParentCompletion
    exact upg_nochild_completed m.length m j hch

/-- Witness for claim C2: un-completing `B` in the fully completed store,
the leaf sibling at index 2 keeps the flag the downward pass gave it even
though the upward pass changes the root. -/
theorem claim_C2_witness :
    completedAt ((toggleTodo exDone "B").getD []) 2 =
      completedAt ((toggleDownward exDone "B").getD []) 2 := by
  have hm : toggleDownward exDone "B" =
      some [{ id := "P", text := "P", completed := true, depth := 0, priority := .normal },
            { id := "B", text := "B", completed := false, depth := 1, priority := .normal },
            { id := "C", text := "C", completed := true, depth := 1, priority := .normal }] := by
    simp +decide [toggleDownward, exDone, updateChildrenCompletion, uccGo,
      getDirectChildren, getDirectChildrenAux, List.findIdx, List.findIdx.go,
      List.get_eq_getElem]
  have hr : toggleTodo exDone "B" =
      some [{ id := "P", text := "P", completed := false, depth := 0, priority := .normal },
            { id := "B", text := "B", completed := false, depth := 1, priority := .normal },
            { id := "C", text := "C", completed := true, depth := 1, priority := .normal }] := by
    simp +decide [toggleTodo, exDone, updateChildrenCompletion, uccGo, updateParentCompletion,
      updateParentGo, updateParentStep, getDirectChildren, getDirectChildrenAux,
      List.findIdx, List.findIdx.go, List.get_eq_getElem]
  have h := claim_C2 exDone "B" _ _ hm hr
  rw [hm, hr]
  exact h.2 2 (by decide)

/-- Claim C3 (amended): un-completing an item cascades nothing downward —
the downward phase changes only the target's own flag — and every
already-completed item with no direct children (in particular every
completed leaf sibling) other than the target is still completed in the
result.  (A completed sibling that has an incomplete child of its own is
un-completed by the upward pass; see the counterexample.) -/
theorem claim_C3 (todos : List Todo) (id : String) (r : List Todo)
    (hr : toggleTodo todos id = some r)
    (hlen : todos.findIdx (fun todo => todo.id = id) < todos.length)
    (hc : completedAt todos (todos.findIdx (fun todo => todo.id = id)) = some true) :
    toggleDownward todos id = some (todos.set (todos.findIdx (fun todo => todo.id = id))
      { todos.get ⟨todos.findIdx (fun todo => todo.id = id), hlen⟩ with completed := false })
    ∧ ∀ j, j ≠ todos.findIdx (fun todo => todo.id = id) →
        getDirectChildren todos j = [] → completedAt todos j = some true →
        completedAt r j = some true := by
  have hcg : (todos.get ⟨todos.findIdx (fun todo => todo.id = id), hlen⟩).completed = true := by
    unfold completedAt at hc
    rw [List.getElem?_eq_getElem hlen] at hc
    simpa using hc
  have hdown := toggle_false_downward todos id hlen hcg
  refine ⟨hdown, ?_⟩
  intro j hne hch hcomp
  have hb := toggle_eq_downward todos id
  rw [hdown, hr] at hb
  have hbEq : r = updateParentCompletion (todos.set (todos.findIdx (fun todo => todo.id = id))
      { todos.get ⟨todos.findIdx (fun todo => todo.id = id), hlen⟩ with completed := false }) := by
    simpa using hb
  have hshm : (todos.set (todos.findIdx (fun todo => todo.id = id))
      { todos.get ⟨todos.findIdx (fun todo => todo.id = id), hlen⟩ with
        completed := false }).map shape = todos.map shape :=
    map_shape_set false (by rw [List.getElem?_eq_getElem hlen]; rfl)
  rw [hbEq]
  unfold updateParentCompletion
  rw [upg_nochild_completed _ _ j ((gdc_nil_congr hshm j).mpr hch)]
  unfold completedAt
  rw [List.getElem?_set_ne (Ne.symm hne)]
  exact hcomp

/-- Counterexample to claim C3 as stated: un-completing the leaf `T` in a
store whose completed sibling `S` has an incomplete child `X` un-completes
`S` too (the upward pass sees `X` incomplete), so an already-completed
sibling does not always stay completed. -/
theorem claim_C3_cex :
    exSiblingChild.findIdx (fun todo => todo.id = "T") = 3 ∧
    getDirectChildren exSiblingChild 3 = [] ∧
    completedAt exSiblingChild 3 = some true ∧
    (getDirectChildren exSiblingChild 0).map (fun t => t.id) = ["S", "T"] ∧
    completedAt exSiblingChild 1 = some true ∧
    (toggleTodo exSiblingChild "T").map (fun r => completedAt r 1) = some (some false) := by
  have hres : toggleTodo exSiblingChild "T" =
      some [{ id := "P", text := "P", completed := false, depth := 0, priority := .normal },
            { id := "S", text := "S", completed := false, depth := 1, priority := .normal },
            { id := "X", text := "X", completed := false, depth := 2, priority := .normal },
            { id := "T", text := "T", completed := false, depth := 1, priority := .normal }] := by
    simp +decide [toggleTodo, exSiblingChild, updateChildrenCompletion, uccGo,
      updateParentCompletion, updateParentGo, updateParentStep, getDirectChildren,
      getDirectChildrenAux, List.findIdx, List.findIdx.go, List.get_eq_getElem]
  refine ⟨by decide, by decide, by decide, by decide, by decide, ?_⟩
  rw [hres]
  decide

/-- Witness for claim C3: un-completing the leaf `B` of a fully completed
two-child store leaves the completed leaf sibling `C` completed. -/
theorem claim_C3_witness :
    completedAt ((toggleTodo exDone "B").getD []) 2 = some true := by
  have hres : toggleTodo exDone "B" =
      some [{ id := "P", text := "P", completed := false, depth := 0, priority := .normal },
            { id := "B", text := "B", completed := false, depth := 1, priority := .normal },
            { id := "C", text := "C", completed := true, depth := 1, priority := .normal }] := by
    simp [toggleTodo, exDone, updateChildrenCompletion, uccGo, updateParentCompletion,
      updateParentGo, updateParentStep, getDirectChildren, getDirectChildrenAux,
      List.findIdx, List.findIdx.go]
  have h := claim_C3 exDone "B" _ hres (by decide) (by decide)
  rw [hres]
  exact h.2 2 (by decide) (by decide) (by decide)

/-- Claim C4 (amended): when every item of the store shares one depth,
`orderForDisplay` emits them in ascending priority rank; when no two items
share a depth, it returns the store unchanged.  For stores whose depth
groups interleave, neither guarantee of the original claim holds (see the
counterexample): the comparator is inconsistent, so the stable sort can
leave same-depth items out of rank order and reorder items of different
depths. -/
theorem claim_C4 :
    (∀ (l : List Todo) (d : Nat), (∀ t ∈ l, t.depth = d) →
      (orderForDisplay l).Pairwise fun a b =>
        priorityOrder a.priority ≤ priorityOrder b.priority)
    ∧ (∀ l : List Todo, l.Pairwise (fun a b => a.depth ≠ b.depth) →
        orderForDisplay l = l) := by
  constructor
  · intro l d hd
    unfold orderForDisplay sortedTodos
    refine (todoMergeSort_pairwise_same d l hd).imp_of_mem ?_
    intro a b ha hb hle
    have hda : a.depth = d := hd a ((mem_todoMergeSort l a).mp ha)
    have hdb : b.depth = d := hd b ((mem_todoMergeSort l b).mp hb)
    exact (todoLe_iff_rank (hda.trans hdb.symm)).mp hle
  · intro l h
    unfold orderForDisplay sortedTodos
    exact todoMergeSort_eq_self (pairwise_le_of_ne_depth h)

/-- Counterexample to claim C4 as stated: on the interleaved store
`[A (1, low), B (2, low), C (2, emergency), D (1, emergency)]` the display
order is `[A, C, B, D]`, so the same-depth pair `A`, `D` is emitted with
the lower-rank `emergency` item last — not in ascending priority rank. -/
theorem claim_C4_cex :
    (exInterleaved.map fun t => (t.depth, priorityOrder t.priority)) =
      [(1, 3), (2, 3), (2, 0), (1, 0)] ∧
    (orderForDisplay exInterleaved).map (fun t => (t.id, t.depth, priorityOrder t.priority)) =
      [("A", 1, 3), ("C", 2, 0), ("B", 2, 3), ("D", 1, 0)] := by
  have hres : orderForDisplay exInterleaved =
      [{ id := "A", text := "A", completed := false, depth := 1, priority := .low },
       { id := "C", text := "C", completed := false, depth := 2, priority := .emergency },
       { id := "B", text := "B", completed := false, depth := 2, priority := .low },
       { id := "D", text := "D", completed := false, depth := 1, priority := .emergency }] := by
    simp +decide [orderForDisplay, sortedTodos, todoMergeSort, todoMerge, todoLe,
      todoCompare, priorityOrder, exInterleaved]
  refine ⟨by decide, ?_⟩
  rw [hres]
  decide

/-- Witness for claim C4 at a single-depth store and a distinct-depth
store. -/
theorem claim_C4_witness :
    (orderForDisplay exSameDepth).Pairwise
      (fun a b => priorityOrder a.priority ≤ priorityOrder b.priority)
    ∧ orderForDisplay exDistinctDepth = exDistinctDepth :=
  ⟨claim_C4.1 exSameDepth 1 (by decide), claim_C4.2 exDistinctDepth (by decide)⟩

/-- Claim C6 (amended): `orderForDisplay` is idempotent on stores whose
items all share one depth and on stores in which no two items share a
depth; it is not idempotent in general (see the counterexample). -/
theorem claim_C6 :
    (∀ (l : List Todo) (d : Nat), (∀ t ∈ l, t.depth = d) →
      orderForDisplay (orderForDisplay l) = orderForDisplay l)
    ∧ (∀ l : List Todo, l.Pairwise (fun a b => a.depth ≠ b.depth) →
        orderForDisplay (orderForDisplay l) = orderForDisplay l) := by
  constructor
  · intro l d hd
    unfold orderForDisplay sortedTodos
    exact todoMergeSort_eq_self (todoMergeSort_pairwise_same d l hd)
  · intro l h
    unfold orderForDisplay sortedTodos
    rw [todoMergeSort_eq_self (pairwise_le_of_ne_depth h),
      todoMergeSort_eq_self (pairwise_le_of_ne_depth h)]

/-- Counterexample to claim C6 as stated: sorting the seven-item store
`exNonIdem` twice does not reproduce the single sort, so `orderForDisplay`
is not idempotent. -/
theorem claim_C6_cex :
    orderForDisplay (orderForDisplay exNonIdem) ≠ orderForDisplay exNonIdem := by
  simp +decide [orderForDisplay, sortedTodos, todoMergeSort, todoMerge, todoLe,
    todoCompare, priorityOrder, exNonIdem]

/-- Witness for claim C6 at a single-depth store and a distinct-depth
store. -/
theorem claim_C6_witness :
    orderForDisplay (orderForDisplay exSameDepth) = orderForDisplay exSameDepth
    ∧ orderForDisplay (orderForDisplay exDistinctDepth) = orderForDisplay exDistinctDepth :=
  ⟨claim_C6.1 exSameDepth 1 (by decide), claim_C6.2 exDistinctDepth (by decide)⟩

end TodoApp
